import Mathlib

/-!
# Verification of the room-chart generation pipeline

A shallow embedding of the record-normalization-and-layout pipeline of
`src/app.py` (Biology Lab Room Chart Generator): the per-cell normalizer
functions (`parse_time`, `extract_room_number`, `extract_last_name`,
`format_time`, `abbreviate_title`, `expand_days`, `is_before_noon`), the
row expander/filter, the stable multi-key sort and the grid builder of
`process_csv_and_generate_doc`.

Python strings are modelled as Lean `String`s; all string manipulation is
done by structurally recursive helpers over `String.data` so that every
definition evaluates by kernel reduction.  A spreadsheet cell is a
`CellVal`: missing (`pandas` NA), a string, a structured time of day
(`datetime.time`, to minute precision), or a number.  Python functions
that can raise an exception are embedded in `Except PyExc`; functions
none of whose operations can raise are embedded as plain total functions.
-/

namespace BioChart

/-- A cell value of the input spreadsheet: missing (`pandas` NA / NaN),
a string, a structured `datetime.time` (hour/minute), or an integer. -/
inductive CellVal where
  | nan : CellVal
  | str (s : String) : CellVal
  | timeOfDay (hour minute : Nat) : CellVal
  | int (n : Int) : CellVal
deriving DecidableEq, Repr

/-- The exceptions the embedded code can raise (`TypeError` from applying
string operations to non-string values). -/
inductive PyExc where
  | typeError : PyExc
deriving DecidableEq, Repr

/-- Python `str.isspace` characters relevant to `str.strip()`. -/
def pyIsSpace (c : Char) : Bool :=
  c = ' ' || c = '\t' || c = '\n' || c = '\r' || c = '\x0b' || c = '\x0c'

/-- Leading- and trailing-whitespace strip on a character list
(Python `str.strip()`). -/
def pyStripL (l : List Char) : List Char :=
  ((l.dropWhile pyIsSpace).reverse.dropWhile pyIsSpace).reverse

/-- Python `str.strip()`. -/
def pyStrip (s : String) : String :=
  ⟨pyStripL s.data⟩

/-- Helper for `pySplitCh`: accumulator holds the current (reversed) piece. -/
def splitChAux (sep : Char) : List Char → List Char → List String
  | [], acc => [⟨acc.reverse⟩]
  | c :: rest, acc =>
    if c = sep then ⟨acc.reverse⟩ :: splitChAux sep rest []
    else splitChAux sep rest (c :: acc)

/-- Python `str.split(sep)` for a single-character separator: splits at every
occurrence and keeps empty pieces (`"".split(' ') == ['']`). -/
def pySplitCh (s : String) (sep : Char) : List String :=
  splitChAux sep s.data []

/-- Numeric value of a list of decimal digits. -/
def digitsVal (l : List Char) : Nat :=
  l.foldl (fun acc c => acc * 10 + (c.toNat - '0'.toNat)) 0

/-- Python `int(str)`: surrounding whitespace is allowed, then an optional
sign and a nonempty run of decimal digits; anything else raises
`ValueError` (modelled as `none`).  (Python additionally accepts digit
group separators and non-ASCII decimal digits; no input in this
development uses them.) -/
def pyToInt (s : String) : Option Int :=
  match pyStripL s.data with
  | [] => none
  | '+' :: rest =>
    if rest ≠ [] ∧ rest.all (·.isDigit) then some (digitsVal rest) else none
  | '-' :: rest =>
    if rest ≠ [] ∧ rest.all (·.isDigit) then some (-(digitsVal rest : Int)) else none
  | l => if l.all (·.isDigit) then some (digitsVal l) else none

/-- Python `str.upper()` (ASCII; the strings this program handles are ASCII). -/
def pyUpper (s : String) : String :=
  ⟨s.data.map Char.toUpper⟩

/-- Two-digit zero padding of a number below 100. -/
def pad2 (n : Nat) : String :=
  if n < 10 then "0" ++ toString n else toString n

/-- Python `str(value)` for the cell values this program handles:
`str(float('nan')) == 'nan'`, strings unchanged, `datetime.time` rendered
as zero-padded `HH:MM:SS`, integers in decimal. -/
def pyStr : CellVal → String
  | .nan => "nan"
  | .str s => s
  | .timeOfDay h m => pad2 h ++ ":" ++ pad2 m ++ ":00"
  | .int n => toString n

/-- The string branch of `parse_time` (`src/app.py` lines 31-41): strip,
split on a single space into exactly a time part and a period part, split
the time part on `:` into exactly hours and minutes, convert both with
`int`, then apply the 12-hour → 24-hour adjustment.  Any failure is caught
by the surrounding `try` and yields `None`. -/
def parseClock (s : String) : Option Int :=
  match pySplitCh (pyStrip s) ' ' with
  | [time, period] =>
    match pySplitCh time ':' with
    | [hs, ms] =>
      match pyToInt hs, pyToInt ms with
      | some hours, some minutes =>
        let h1 := if pyUpper period = "PM" ∧ hours ≠ 12 then hours + 12 else hours
        let h2 := if pyUpper period = "AM" ∧ h1 = 12 then 0 else h1
        some (h2 * 60 + minutes)
      | _, _ => none
    | _ => none
  | _ => none

/-- `parse_time` (`src/app.py` lines 24-42): minutes since midnight, or
`None` for missing/empty/unparseable input. -/
def parse_time : CellVal → Option Int
  | .nan => none
  | .timeOfDay h m => some ((h : Int) * 60 + m)
  | .str s => if s = "" then none else parseClock s
  | .int _ => none

/-- Maximal runs of decimal digits in a character list
(`re.findall(r'\d+', s)`). -/
def digitRunsAux : List Char → List Char → List (List Char)
  | [], acc => if acc.isEmpty then [] else [acc.reverse]
  | c :: rest, acc =>
    if c.isDigit then digitRunsAux rest (c :: acc)
    else if acc.isEmpty then digitRunsAux rest []
    else acc.reverse :: digitRunsAux rest []

/-- `extract_room_number` (`src/app.py` lines 44-48): the last run of digits
anywhere in `str(location)`, or `None` if there is none. -/
def extract_room_number (location : CellVal) : Option Int :=
  match location with
  | .nan => none
  | v =>
    if v = .str "" then none
    else
      match (digitRunsAux (pyStr v).data []).getLast? with
      | some run => some (digitsVal run)
      | none => none

/-- Python `needle in hay` substring containment on character lists. -/
def containsSub (needle : List Char) : List Char → Bool
  | [] => needle.isPrefixOf []
  | c :: rest => needle.isPrefixOf (c :: rest) || containsSub needle rest

/-- Last element of a list of strings (`parts[-1]`); `str.split` never
returns an empty list, so the `[]` case is unreachable. -/
def lastOf : List String → String
  | [] => ""
  | [x] => x
  | _ :: y :: rest => lastOf (y :: rest)

/-- `extract_last_name` (`src/app.py` lines 50-55): empty string for
missing/empty input, the literal override for any string containing
"Wilnelia Recart Gonzalez", otherwise the last piece of a split on the
space character, upper-cased.  The `in` containment test raises
`TypeError` on a non-string, non-missing value. -/
def extract_last_name : CellVal → Except PyExc String
  | .nan => .ok ""
  | .str s =>
    if s = "" then .ok ""
    else if containsSub "Wilnelia Recart Gonzalez".data s.data then .ok "RECART"
    else .ok (pyUpper (lastOf (pySplitCh (pyStrip s) ' ')))
  | _ => .error .typeError

/-- One step of `re.sub(r'\s*(AM|PM)', '', s, flags=IGNORECASE)`: at each
position consume the maximal whitespace run; if it is followed by `AM` or
`PM` (case-insensitive) the whole match is removed, otherwise one
character is emitted.  (`\s*` is greedy, and backtracking cannot help
because `A`/`P` are not whitespace, so the maximal run is the only
candidate.)  The fuel argument starts at `length + 1` and dominates the
number of characters consumed, so it never runs out. -/
def stripAmPmAux : Nat → List Char → List Char
  | 0, l => l
  | _ + 1, [] => []
  | fuel + 1, c :: rest =>
    match (c :: rest).dropWhile pyIsSpace with
    | a :: b :: rest2 =>
      if (a.toUpper = 'A' ∨ a.toUpper = 'P') ∧ b.toUpper = 'M' then
        stripAmPmAux fuel rest2
      else c :: stripAmPmAux fuel rest
    | _ => c :: stripAmPmAux fuel rest

/-- `format_time` (`src/app.py` lines 57-70): empty for missing/empty input;
a structured time is rendered `strftime('%I:%M')` (12-hour, zero-padded)
with one leading zero stripped; a string has its `AM`/`PM` suffix (with
preceding whitespace) removed; anything else is `str(value)`. -/
def format_time : CellVal → String
  | .nan => ""
  | .timeOfDay h m =>
    let h12 := if h % 12 = 0 then 12 else h % 12
    let s := pad2 h12 ++ ":" ++ pad2 m
    if s.data.head? = some '0' then ⟨s.data.tail⟩ else s
  | .str s => if s = "" then "" else ⟨stripAmPmAux (s.data.length + 1) s.data⟩
  | .int n => toString n

/-- The ordered abbreviation table of `abbreviate_title`
(`src/app.py` lines 75-99); Python dicts iterate in insertion order. -/
def abbreviations : List (String × String) :=
  [("Anatomy & Physiology", "A & P"),
   ("Bioenergetics and Systems", "Bioenergetics"),
   ("Genomes and Evolution", "Genome Evol"),
   ("Medical Microbiology", "Med Micro"),
   ("Earth/Life Sci for Educators", "Life Sci Ed"),
   ("Biostatistics", "Biostats"),
   ("Biology Capstone Seminar", "Capstone"),
   ("Insect Biology", "Insect Bio"),
   ("Science in the Public Domain", "SCI Pub Dom"),
   ("Ecological Community:San Diego", "Ecol Comm"),
   ("Research Methods", "Res Meth"),
   ("Cell Physiology", "Cell Phys"),
   ("Vertebrate Physiology", "Vert Phys"),
   ("Microbiology", "Micro"),
   ("Research Project", "Res Proj"),
   ("Techniques: Molecular Biology", "Molec Tech"),
   ("Comp. Anat. of Vertebrates", "Comp An Vert"),
   ("Invertebrate Zoology", "Invert Zoo"),
   ("Peoples, Plagues and Microbes", "Ppl Plag Micro"),
   ("Ecol Evol Infectious Disease", "EEID"),
   ("Immunology", "Immuno"),
   ("Laboratory", ""),
   ("Lab", "")]

/-- Whether one pattern character matches one subject character under
`re.IGNORECASE`: `.` matches any character except a newline, every other
character in the table's patterns is literal. -/
def patCharMatches (p c : Char) : Bool :=
  if p = '.' then c ≠ '\n' else p.toLower = c.toLower

/-- Match a pattern against a prefix of the subject; returns the unmatched
rest on success. -/
def patMatchPrefix : List Char → List Char → Option (List Char)
  | [], rest => some rest
  | _ :: _, [] => none
  | p :: ps, c :: cs => if patCharMatches p c then patMatchPrefix ps cs else none

/-- `re.sub(pattern, replacement, s)` for the patterns of the abbreviation
table: scan left to right, replace every (leftmost, non-overlapping)
match.  All table patterns are nonempty, so every match consumes at least
one character and fuel `length + 1` never runs out. -/
def reSubAux (pat rep : List Char) : Nat → List Char → List Char
  | 0, l => l
  | _ + 1, [] => []
  | fuel + 1, c :: cs =>
    match patMatchPrefix pat (c :: cs) with
    | some rest => rep ++ reSubAux pat rep fuel rest
    | none => c :: reSubAux pat rep fuel cs

/-- `re.sub(pat, rep, s, flags=IGNORECASE)` on strings. -/
def reSub (pat rep s : String) : String :=
  ⟨reSubAux pat.data rep.data (s.data.length + 1) s.data⟩

/-- Python `str.replace(pat, rep)`: literal, case-sensitive, every
(leftmost, non-overlapping) occurrence.  The pattern used in the source
(`'BIOL'`) is nonempty, so every match consumes at least one character
and fuel `length + 1` never runs out. -/
def strReplaceAux (pat rep : List Char) : Nat → List Char → List Char
  | 0, l => l
  | _ + 1, [] => []
  | fuel + 1, c :: cs =>
    if pat.isPrefixOf (c :: cs) then
      rep ++ strReplaceAux pat rep fuel ((c :: cs).drop pat.length)
    else c :: strReplaceAux pat rep fuel cs

/-- Python `str.replace` on strings. -/
def pyReplace (s pat rep : String) : String :=
  ⟨strReplaceAux pat.data rep.data (s.data.length + 1) s.data⟩

/-- `abbreviate_title` (`src/app.py` lines 72-102): empty for missing/empty
input, otherwise the abbreviation rules applied in table order, each by
one case-insensitive `re.sub` over the whole string.  `re.sub` applied to
a non-string, non-missing value raises `TypeError`. -/
def abbreviate_title : CellVal → Except PyExc String
  | .nan => .ok ""
  | .str s =>
    if s = "" then .ok ""
    else .ok (abbreviations.foldl (fun t fr => reSub fr.1 fr.2 t) s)
  | _ => .error .typeError

/-- The weekday enumeration (`day_order` values). -/
inductive Day where
  | mon | tue | wed | thu | fri | sat | sun
deriving DecidableEq, Repr

/-- The single-letter day codes of `expand_days` (`src/app.py` line 107). -/
def dayOfChar : Char → Option Day
  | 'M' => some .mon
  | 'T' => some .tue
  | 'W' => some .wed
  | 'R' => some .thu
  | 'F' => some .fri
  | 'S' => some .sat
  | 'U' => some .sun
  | _ => none

/-- `expand_days` (`src/app.py` lines 104-108): each recognized letter of
`str(days)` in order; unrecognized letters are skipped. -/
def expand_days (days : CellVal) : List Day :=
  match days with
  | .nan => []
  | v => if v = .str "" then [] else (pyStr v).data.filterMap dayOfChar

/-- `is_before_noon` (`src/app.py` lines 110-131): `hour < 12` on the
24-hour reading of the value; `False` for missing/empty input and on any
parse failure.  Unlike `parse_time`, the string branch uses the first two
space-separated pieces (extra pieces are ignored) and an `if`/`elif`
chain for the 12-hour adjustment. -/
def is_before_noon : CellVal → Bool
  | .nan => false
  | .timeOfDay h _ => decide (h < 12)
  | .str s =>
    if s = "" then false
    else
      match pySplitCh (pyStrip s) ' ' with
      | timePart :: period :: _ =>
        match pySplitCh timePart ':' with
        | [hs, ms] =>
          match pyToInt hs, pyToInt ms with
          | some hours, some _ =>
            let p := pyUpper period
            let h2 :=
              if p = "PM" ∧ hours ≠ 12 then hours + 12
              else if p = "AM" ∧ hours = 12 then 0 else hours
            decide (h2 < 12)
          | _, _ => false
        | _ => false
      | _ => false
  | .int _ => false

/-! ## The pipeline of `process_csv_and_generate_doc` (`src/app.py` 144-199) -/

/-- One input spreadsheet row, restricted to the logical columns the
pipeline reads (the compound column labels of the two-row header are
flattened away). -/
structure Row where
  location : CellVal
  course : CellVal
  title : CellVal
  days : CellVal
  beginTime : CellVal
  endTime : CellVal
  instructor : CellVal
  seats : CellVal
deriving DecidableEq, Repr

/-- One meeting record (an element of `entries`, `src/app.py` 167-177). -/
structure Entry where
  day : Day
  room : Int
  courseNumber : String
  title : String
  beginTimeStr : String
  endTimeStr : String
  instructors : String
  beginTimeParsed : Option Int
  beginTimeOriginal : CellVal
deriving DecidableEq, Repr

/-- `ffill`: a missing value is replaced by the closest preceding
non-missing one. -/
def fillVal (prev cur : CellVal) : CellVal :=
  if cur = .nan then prev else cur

/-- Forward fill of the course / title / instructor columns
(`src/app.py` line 146), carrying the last non-missing value of each. -/
def ffillAux : CellVal → CellVal → CellVal → List Row → List Row
  | _, _, _, [] => []
  | pc, pt, pi, r :: rest =>
    let c := fillVal pc r.course
    let t := fillVal pt r.title
    let i := fillVal pi r.instructor
    { r with course := c, title := t, instructor := i } :: ffillAux c t i rest

/-- `df[cols].ffill()` on the three forward-filled columns. -/
def ffillRows (rows : List Row) : List Row :=
  ffillAux .nan .nan .nan rows

/-- The rows surviving `df = df[df['Seats Remaining:'] != 'CLOSED']`
(`src/app.py` line 147), applied after the forward fill. -/
def keptRows (rows : List Row) : List Row :=
  (ffillRows rows).filter (fun r => r.seats ≠ .str "CLOSED")

/-- The records one row contributes (loop body, `src/app.py` 161-177):
skip the row unless its extracted room is in the target set, then build
one record per expanded weekday.  The record fields are computed inside
the per-day loop in the source, so when the day list is empty none of
them is evaluated (and no exception can be raised); across the days of
one row they are identical. -/
def rowEntries (target_rooms : List Int) (r : Row) : Except PyExc (List Entry) :=
  match extract_room_number r.location with
  | none => .ok []
  | some room =>
    if room ∈ target_rooms then
      match expand_days r.days with
      | [] => .ok []
      | d :: ds =>
        (abbreviate_title r.title).bind fun titleStr =>
        (extract_last_name r.instructor).bind fun instrStr =>
        .ok ((d :: ds).map fun day =>
          { day := day
            room := room
            courseNumber := pyReplace (pyStr r.course) "BIOL" "BIO"
            title := titleStr
            beginTimeStr := format_time r.beginTime
            endTimeStr := format_time r.endTime
            instructors := instrStr
            beginTimeParsed := parse_time r.beginTime
            beginTimeOriginal := r.beginTime })
    else .ok []

/-- The row loop: concatenate each row's records; the first exception
aborts the whole run (`src/app.py` 160-185 returns `None, 0`). -/
def entriesOfRows (target_rooms : List Int) : List Row → Except PyExc (List Entry)
  | [] => .ok []
  | r :: rest =>
    (rowEntries target_rooms r).bind fun es =>
    (entriesOfRows target_rooms rest).bind fun rest' =>
    .ok (es ++ rest')

/-- The unsorted `entries` list of `process_csv_and_generate_doc`:
forward fill, drop `CLOSED` rows, expand each remaining row. -/
def buildEntries (rows : List Row) (target_rooms : List Int) :
    Except PyExc (List Entry) :=
  entriesOfRows target_rooms (keptRows rows)

/-- `day_order` (`src/app.py` line 187). -/
def day_order : List Day :=
  [.mon, .tue, .wed, .thu, .fri, .sat, .sun]

/-- `day_order.index(d)`, written by cases; `expand_days` only ever
produces members of `day_order`, so `.index` cannot raise. -/
def dayIdx : Day → Nat
  | .mon => 0
  | .tue => 1
  | .wed => 2
  | .thu => 3
  | .fri => 4
  | .sat => 5
  | .sun => 6

/-- The sort key of `entries.sort` (`src/app.py` line 188):
`(day_order.index(x['Day']), x['Room'], x['Begin_Time_Parsed'] or 0)`.
`None or 0` is `0`, and `0 or 0` is `0`, so the third component is the
parsed minute value with `None` defaulting to `0`. -/
def entryKey (e : Entry) : Nat × Int × Int :=
  (dayIdx e.day, e.room, e.beginTimeParsed.getD 0)

/-- Lexicographic comparison of Python key tuples. -/
def keyLe (a b : Entry) : Prop :=
  (entryKey a).1 < (entryKey b).1 ∨
    ((entryKey a).1 = (entryKey b).1 ∧
      ((entryKey a).2.1 < (entryKey b).2.1 ∨
        ((entryKey a).2.1 = (entryKey b).2.1 ∧ (entryKey a).2.2 ≤ (entryKey b).2.2)))

instance : DecidableRel keyLe := fun a b => by
  unfold keyLe
  exact inferInstance

instance : IsTotal Entry keyLe where
  total a b := by
    unfold keyLe
    omega

instance : IsTrans Entry keyLe where
  trans a b c hab hbc := by
    unfold keyLe at *
    omega

/-- `entries.sort(key=...)`: Python `list.sort` is a stable sort by the
key tuple; `List.insertionSort` with the (total, transitive) key order is
such a stable sort. -/
def sortEntries (l : List Entry) : List Entry :=
  l.insertionSort keyLe

/-- `sorted(target_rooms)` (`src/app.py` line 190). -/
def rooms_sorted (t : List Int) : List Int :=
  t.insertionSort (· ≤ ·)

/-- `sorted(set(e['Day'] for e in entries), key=day_order.index)`
(`src/app.py` line 191): the distinct weekdays of the records, in
canonical order — equivalently, `day_order` restricted to the weekdays
that occur. -/
def days_present (entries : List Entry) : List Day :=
  day_order.filter (fun d => entries.any (fun e => e.day == d))

/-- One grid cell (`src/app.py` line 197): the records of one weekday and
one room, in the order they appear in the (sorted) record list. -/
def cellClasses (entries : List Entry) (d : Day) (room : Int) : List Entry :=
  entries.filter (fun e => e.day == d && e.room == room)

/-- One grid row (`src/app.py` 194-199): the cell list of one present
weekday, one cell per target room in ascending room order.  An empty cell
is the empty record list (the source stores `''`, which the renderer
treats the same way). -/
def chartRow (entries : List Entry) (t : List Int) (d : Day) :
    Day × List (Int × List Entry) :=
  (d, (rooms_sorted t).map (fun room => (room, cellClasses entries d room)))

/-- The grid (`chart_rows`): one row per present weekday. -/
def chartRows (entries : List Entry) (t : List Int) :
    List (Day × List (Int × List Entry)) :=
  (days_present entries).map (chartRow entries t)

/-- The fixed target room set (`src/app.py` line 372). -/
def target_rooms_config : List Int :=
  [225, 227, 229, 242, 325, 327, 330, 429]

/-! ## Spec-modelled comparison functions

These definitions follow the words of the specification (not the code);
they exist only to be compared with the embedded source functions. -/

/-- Case-insensitive literal prefix test. -/
def ciIsPrefixOf : List Char → List Char → Bool
  | [], _ => true
  | _ :: _, [] => false
  | p :: ps, c :: cs => p.toLower = c.toLower && ciIsPrefixOf ps cs

/-- Literal case-insensitive replacement of every (leftmost,
non-overlapping) occurrence; same fuel discipline as `reSubAux`. -/
def ciReplaceAux (pat rep : List Char) : Nat → List Char → List Char
  | 0, l => l
  | _ + 1, [] => []
  | fuel + 1, c :: cs =>
    if ciIsPrefixOf pat (c :: cs) then
      rep ++ ciReplaceAux pat rep fuel ((c :: cs).drop pat.length)
    else c :: ciReplaceAux pat rep fuel cs

/-- Literal case-insensitive replace-all on strings. -/
def ciReplace (pat rep s : String) : String :=
  ⟨ciReplaceAux pat.data rep.data (s.data.length + 1) s.data⟩

/-- Modelled from the spec: "applies an ordered list of literal
find/replace rules (case-insensitive) from a fixed dictionary … apply in
the fixed table order, each rule applied once to the whole string" — the
abbreviation table applied as literal (not regular-expression)
case-insensitive replacements. -/
def abbreviateTitleLiteral (s : String) : String :=
  abbreviations.foldl (fun t fr => ciReplace fr.1 fr.2 t) s

/-- Modelled from the spec: "the last whitespace-separated token" of a
string (empty when the string has no token): drop trailing whitespace,
then take the trailing run of non-whitespace characters. -/
def lastWsToken (s : String) : String :=
  ⟨((s.data.reverse.dropWhile pyIsSpace).takeWhile (fun c => !pyIsSpace c)).reverse⟩

/-- The space character alone, as a predicate (what `str.split(' ')`
separates on, as opposed to the full whitespace class of `str.strip`). -/
def isSpc (c : Char) : Bool :=
  c = ' '

/-! ## Concrete test data

The three-row round-trip scenario of the specification: a room-225 row
meeting `MW` mornings, a room-227 row meeting Monday afternoon, and a
`CLOSED` room-225 Tuesday row. -/

/-- Scenario row 1: room 225, days `MW`, 9:00–9:50 AM. -/
def scenarioRow1 : Row :=
  { location := .str "Life Sciences 225"
    course := .str "BIOL 101"
    title := .str "Medical Microbiology"
    days := .str "MW"
    beginTime := .str "9:00 AM"
    endTime := .str "9:50 AM"
    instructor := .str "Jane Doe"
    seats := .str "5" }

/-- Scenario row 2: room 227, Monday, 1:00–2:15 PM. -/
def scenarioRow2 : Row :=
  { location := .str "Life Sciences 227"
    course := .str "BIOL 221"
    title := .str "Genomes and Evolution"
    days := .str "M"
    beginTime := .str "1:00 PM"
    endTime := .str "2:15 PM"
    instructor := .str "John Smith"
    seats := .str "3" }

/-- Scenario row 3: room 225, Tuesday, seats-remaining `CLOSED`. -/
def scenarioRow3 : Row :=
  { location := .str "Life Sciences 225"
    course := .str "BIOL 305"
    title := .str "Immunology"
    days := .str "T"
    beginTime := .str "10:00 AM"
    endTime := .str "11:15 AM"
    instructor := .str "Ann Lee"
    seats := .str "CLOSED" }

/-- The scenario input. -/
def scenarioRows : List Row :=
  [scenarioRow1, scenarioRow2, scenarioRow3]

/-- The Monday record of scenario row 1. -/
def entryMon225 : Entry :=
  { day := .mon
    room := 225
    courseNumber := "BIO 101"
    title := "Med Micro"
    beginTimeStr := "9:00"
    endTimeStr := "9:50"
    instructors := "DOE"
    beginTimeParsed := some 540
    beginTimeOriginal := .str "9:00 AM" }

/-- The Wednesday record of scenario row 1. -/
def entryWed225 : Entry :=
  { entryMon225 with day := .wed }

/-- The Monday record of scenario row 2. -/
def entryMon227 : Entry :=
  { day := .mon
    room := 227
    courseNumber := "BIO 221"
    title := "Genome Evol"
    beginTimeStr := "1:00"
    endTimeStr := "2:15"
    instructors := "SMITH"
    beginTimeParsed := some 780
    beginTimeOriginal := .str "1:00 PM" }

/-- A record with the same sort key as `entryMon225` but different
content (used to exercise sort stability). -/
def entryMon225B : Entry :=
  { entryMon225 with title := "Other Title" }

/-- A well-formed clock string `H:MM P` (`P` the period), e.g.
`clockStr 9 5 "AM" = "9:05 AM"`. -/
def clockStr (h m : Nat) (period : String) : String :=
  toString h ++ ":" ++ pad2 m ++ " " ++ period

/-! ## General lemmas -/

/-- `dayIdx` agrees with `day_order.index`. -/
theorem dayIdx_eq_indexOf : ∀ d : Day, dayIdx d = day_order.indexOf d := by
  intro d
  cases d <;> rfl

/-- Every weekday is a member of `day_order`. -/
theorem mem_day_order : ∀ d : Day, d ∈ day_order := by
  intro d
  cases d <;> simp [day_order]

/-! ## C4: `parse_time` -/

/-- **C4.** `parse_time` converts to minutes since midnight in 24-hour
form and returns `None` on empty input: the three example values hold,
and every well-formed `H:MM AM/PM` string (`1 ≤ H ≤ 12`, `MM < 60`) maps
to its 24-hour minutes-since-midnight value, `12 AM` mapping to hour 0
and `PM` adding 12 except at hour 12. -/
theorem parse_time_claim :
    parse_time (.str "9:05 AM") = some 545 ∧
    parse_time (.str "12:30 PM") = some 750 ∧
    parse_time (.str "") = none ∧
    (∀ h : Nat, h < 13 → 1 ≤ h → ∀ m : Nat, m < 60 →
      parse_time (.str (clockStr h m "AM")) =
        some ((if h = 12 then 0 else (h : Int)) * 60 + m) ∧
      parse_time (.str (clockStr h m "PM")) =
        some ((if h = 12 then (12 : Int) else (h : Int) + 12) * 60 + m)) := by
  refine ⟨rfl, rfl, rfl, ?_⟩
  decide

/-- Witness for C4 at `9:05`. -/
theorem parse_time_claim_witness :
    parse_time (.str (clockStr 9 5 "AM")) = some 545 ∧
    parse_time (.str (clockStr 9 5 "PM")) = some 1265 := by
  simpa using parse_time_claim.2.2.2 9 (by decide) (by decide) 5 (by decide)

/-! ## C8: `is_before_noon` -/

/-- **C8.** `is_before_noon` is true exactly when the 24-hour hour of the
value is below 12, and false on empty or unparseable input: structured
times compare their hour with 12; `12:00 PM` is afternoon; `12:30 AM` is
morning; empty, missing and numeric values are never morning; and every
well-formed `H:MM AM/PM` string classifies as morning iff its period is
`AM`. -/
theorem is_before_noon_claim :
    (∀ h m : Nat, is_before_noon (.timeOfDay h m) = decide (h < 12)) ∧
    is_before_noon (.str "12:00 PM") = false ∧
    is_before_noon (.str "12:30 AM") = true ∧
    is_before_noon (.str "") = false ∧
    is_before_noon .nan = false ∧
    (∀ n : Int, is_before_noon (.int n) = false) ∧
    is_before_noon (.str "not a time") = false ∧
    (∀ h : Nat, h < 13 → 1 ≤ h → ∀ m : Nat, m < 60 →
      is_before_noon (.str (clockStr h m "AM")) = true ∧
      is_before_noon (.str (clockStr h m "PM")) = false) := by
  refine ⟨fun h m => rfl, rfl, rfl, rfl, rfl, fun n => rfl, rfl, ?_⟩
  decide

/-- Witness for C8 at noon and just after midnight. -/
theorem is_before_noon_claim_witness :
    is_before_noon (.str (clockStr 12 0 "AM")) = true ∧
    is_before_noon (.str (clockStr 12 0 "PM")) = false :=
  is_before_noon_claim.2.2.2.2.2.2.2 12 (by decide) (by decide) 0 (by decide)

/-! ## Provenance lemmas for the expander/filter -/

/-- A row with no extractable room number contributes no records. -/
theorem rowEntries_none {t : List Int} {r : Row}
    (h : extract_room_number r.location = none) : rowEntries t r = .ok [] := by
  unfold rowEntries
  simp [h]

/-- A row whose room is outside the target set contributes no records. -/
theorem rowEntries_notMem {t : List Int} {r : Row} {room : Int}
    (h1 : extract_room_number r.location = some room) (h2 : room ∉ t) :
    rowEntries t r = .ok [] := by
  unfold rowEntries
  simp [h1, h2]

/-- Every record a row contributes carries that row's extracted room
number (which is in the target set) and its rewritten course number. -/
theorem rowEntries_ok_spec {t : List Int} {r : Row} {es : List Entry}
    (h : rowEntries t r = .ok es) :
    ∀ e ∈ es,
      extract_room_number r.location = some e.room ∧ e.room ∈ t ∧
      e.courseNumber = pyReplace (pyStr r.course) "BIOL" "BIO" := by
  intro e he
  unfold rowEntries at h
  cases hroom : extract_room_number r.location with
  | none =>
    simp only [hroom, Except.ok.injEq] at h
    subst h
    cases he
  | some room =>
    simp only [hroom] at h
    by_cases hm : room ∈ t
    · simp only [hm, if_true] at h
      cases hdays : expand_days r.days with
      | nil =>
        simp only [hdays, Except.ok.injEq] at h
        subst h
        cases he
      | cons d ds =>
        simp only [hdays] at h
        cases ht : abbreviate_title r.title with
        | error ex => simp [ht, Except.bind] at h
        | ok titleStr =>
          cases hi : extract_last_name r.instructor with
          | error ex => simp [ht, hi, Except.bind] at h
          | ok instrStr =>
            simp only [ht, hi, Except.bind, Except.ok.injEq] at h
            subst h
            obtain ⟨day, _, rfl⟩ := List.mem_map.mp he
            exact ⟨rfl, hm, rfl⟩
    · simp only [hm, if_false, Except.ok.injEq] at h
      subst h
      cases he

/-- Every record of the row loop's output comes from some row of the
input list. -/
theorem mem_entriesOfRows {t : List Int} :
    ∀ {rs : List Row} {es : List Entry}, entriesOfRows t rs = .ok es →
      ∀ e ∈ es, ∃ r ∈ rs, ∃ es', rowEntries t r = .ok es' ∧ e ∈ es' := by
  intro rs
  induction rs with
  | nil =>
    intro es h e he
    simp only [entriesOfRows, Except.ok.injEq] at h
    subst h
    cases he
  | cons r rest ih =>
    intro es h e he
    simp only [entriesOfRows] at h
    cases h1 : rowEntries t r with
    | error ex => simp [h1, Except.bind] at h
    | ok es1 =>
      cases h2 : entriesOfRows t rest with
      | error ex => simp [h1, h2, Except.bind] at h
      | ok es2 =>
        simp only [h1, h2, Except.bind, Except.ok.injEq] at h
        subst h
        rcases List.mem_append.mp he with h3 | h3
        · exact ⟨r, List.mem_cons_self r rest, es1, h1, h3⟩
        · obtain ⟨r', hr', es', hre, he'⟩ := ih h2 e h3
          exact ⟨r', List.mem_cons_of_mem r hr', es', hre, he'⟩

/-! ## C1: the room filter invariant -/

/-- **C1.** A row whose extracted room is missing or outside the target
set contributes zero records; every record a row does contribute carries
exactly the row's extracted room number; and globally every record
emitted by the pipeline has a room in the target set. -/
theorem room_filter_claim :
    (∀ (t : List Int) (r : Row), extract_room_number r.location = none →
      rowEntries t r = .ok []) ∧
    (∀ (t : List Int) (r : Row) (room : Int),
      extract_room_number r.location = some room → room ∉ t →
      rowEntries t r = .ok []) ∧
    (∀ (t : List Int) (r : Row) (es : List Entry), rowEntries t r = .ok es →
      ∀ e ∈ es, extract_room_number r.location = some e.room ∧ e.room ∈ t) ∧
    (∀ (rows : List Row) (t : List Int) (es : List Entry),
      buildEntries rows t = .ok es → ∀ e ∈ es, e.room ∈ t) := by
  refine ⟨fun t r h => rowEntries_none h,
          fun t r room h1 h2 => rowEntries_notMem h1 h2,
          fun t r es h e he => ⟨(rowEntries_ok_spec h e he).1, (rowEntries_ok_spec h e he).2.1⟩,
          ?_⟩
  intro rows t es h e he
  obtain ⟨r, _, es', hre, he'⟩ := mem_entriesOfRows h e he
  exact (rowEntries_ok_spec hre e he').2.1

/-- Witness for C1 on the three-row scenario. -/
theorem room_filter_claim_witness :
    entryMon225.room ∈ target_rooms_config :=
  room_filter_claim.2.2.2 scenarioRows target_rooms_config
    [entryMon225, entryWed225, entryMon227] rfl entryMon225 (by decide)

/-! ## C10: the course-number rewrite -/

/-- **C10.** Every emitted record's course-number field is the source
row's course cell converted to a string with every occurrence of `BIOL`
replaced by `BIO`. -/
theorem course_rewrite_claim :
    ∀ (rows : List Row) (t : List Int) (es : List Entry),
      buildEntries rows t = .ok es → ∀ e ∈ es,
        ∃ r ∈ keptRows rows,
          e.courseNumber = pyReplace (pyStr r.course) "BIOL" "BIO" := by
  intro rows t es h e he
  obtain ⟨r, hr, es', hre, he'⟩ := mem_entriesOfRows h e he
  exact ⟨r, hr, (rowEntries_ok_spec hre e he').2.2⟩

/-- Witness for C10 on the three-row scenario. -/
theorem course_rewrite_claim_witness :
    ∃ r ∈ keptRows scenarioRows,
      entryMon225.courseNumber = pyReplace (pyStr r.course) "BIOL" "BIO" :=
  course_rewrite_claim scenarioRows target_rooms_config
    [entryMon225, entryWed225, entryMon227] rfl entryMon225 (by decide)

/-! ## C2: the sort step -/

/-- Records with equal sort keys are related by the key order. -/
theorem keyLe_of_entryKey_eq {a b : Entry} (h : entryKey a = entryKey b) :
    keyLe a b := by
  unfold keyLe
  rw [h]
  omega

/-- **C2.** After the sort step the record list is ordered by the key
(weekday index in canonical order, then room ascending, then parsed
start minutes with `None` as 0), the sort is stable (a pair of records
with equal keys keeps its original relative order), and the output is a
permutation of the input. -/
theorem sort_claim :
    ∀ l : List Entry,
      (sortEntries l).Sorted keyLe ∧
      (sortEntries l).Perm l ∧
      (∀ a b : Entry, entryKey a = entryKey b → List.Sublist [a, b] l →
        List.Sublist [a, b] (sortEntries l)) := by
  intro l
  refine ⟨List.sorted_insertionSort keyLe l, List.perm_insertionSort keyLe l, ?_⟩
  intro a b hk hab
  exact List.pair_sublist_insertionSort (keyLe_of_entryKey_eq hk) hab

/-- Witness for C2: two same-key records stay in order. -/
theorem sort_claim_witness :
    List.Sublist [entryMon225, entryMon225B] (sortEntries [entryMon225, entryMon225B]) :=
  (sort_claim [entryMon225, entryMon225B]).2.2 entryMon225 entryMon225B rfl
    (List.Sublist.refl _)

/-! ## C3: the grid builder -/

/-- `day_order` is strictly increasing under `dayIdx`. -/
theorem day_order_pairwise :
    day_order.Pairwise (fun a b => dayIdx a < dayIdx b) := by
  decide

/-- **C3.** The grid has exactly one row per present weekday, in
canonical weekday order; each row has exactly one cell per target room,
in ascending room order (rooms not repeated when the configuration has
no duplicates); each cell holds exactly the records matching its weekday
and room, as a sublist of the record list (their global order is
preserved, no re-sorting); and every (present weekday, target room) pair
has its cell, possibly empty. -/
theorem grid_claim :
    ∀ (es : List Entry) (t : List Int), t.Nodup →
      ((chartRows es t).map Prod.fst = days_present es) ∧
      ((days_present es).Pairwise fun a b => dayIdx a < dayIdx b) ∧
      (∀ d : Day, d ∈ days_present es ↔ ∃ e ∈ es, e.day = d) ∧
      ((rooms_sorted t).Perm t ∧ (rooms_sorted t).Sorted (· ≤ ·) ∧
        (rooms_sorted t).Nodup) ∧
      (∀ p ∈ chartRows es t, p.2.map Prod.fst = rooms_sorted t) ∧
      (∀ p ∈ chartRows es t, ∀ c ∈ p.2,
        c.2 = cellClasses es p.1 c.1 ∧ List.Sublist c.2 es) ∧
      (∀ d ∈ days_present es, ∀ room ∈ t, ∃ p ∈ chartRows es t,
        p.1 = d ∧ (room, cellClasses es d room) ∈ p.2) := by
  intro es t ht
  have hperm : (rooms_sorted t).Perm t := List.perm_insertionSort _ t
  refine ⟨?_, ?_, ?_, ⟨hperm, List.sorted_insertionSort _ t, ?_⟩, ?_, ?_, ?_⟩
  · simp [chartRows, chartRow, List.map_map, Function.comp_def]
  · exact day_order_pairwise.sublist (List.filter_sublist day_order)
  · intro d
    simp [days_present, List.mem_filter, mem_day_order, List.any_eq_true]
  · exact hperm.nodup_iff.mpr ht
  · intro p hp
    obtain ⟨d, _, rfl⟩ := List.mem_map.mp hp
    simp [chartRow, List.map_map, Function.comp_def]
  · intro p hp c hc
    obtain ⟨d, _, rfl⟩ := List.mem_map.mp hp
    obtain ⟨room, _, rfl⟩ := List.mem_map.mp hc
    exact ⟨rfl, List.filter_sublist es⟩
  · intro d hd room hroom
    refine ⟨chartRow es t d, List.mem_map_of_mem _ hd, rfl, ?_⟩
    exact List.mem_map_of_mem _ (hperm.mem_iff.mpr hroom)

/-- Witness for C3: the configured room list has no duplicates. -/
theorem grid_claim_witness :
    (rooms_sorted target_rooms_config).Perm target_rooms_config :=
  (grid_claim [entryMon225] target_rooms_config (by decide)).2.2.2.1.1

/-! ## C5: the round-trip scenario and the CLOSED filter -/

/-- The forward fill touches only the course / title / instructor
columns, never the seats column. -/
theorem seats_ffill_update (pc pt pi : CellVal) (r : Row) :
    ({ r with
        course := fillVal pc r.course
        title := fillVal pt r.title
        instructor := fillVal pi r.instructor } : Row).seats = r.seats :=
  rfl

/-- Appending a `CLOSED` row leaves the filtered row loop unchanged, for
any forward-fill state. -/
theorem entriesOfRows_append_closed (t : List Int) (r : Row)
    (hr : r.seats = .str "CLOSED") :
    ∀ (rows : List Row) (pc pt pi : CellVal),
      entriesOfRows t ((ffillAux pc pt pi (rows ++ [r])).filter
        (fun x => x.seats ≠ .str "CLOSED")) =
      entriesOfRows t ((ffillAux pc pt pi rows).filter
        (fun x => x.seats ≠ .str "CLOSED")) := by
  intro rows
  induction rows with
  | nil =>
    intro pc pt pi
    simp [ffillAux, List.filter, hr, entriesOfRows]
  | cons x rest ih =>
    intro pc pt pi
    simp only [List.cons_append, ffillAux]
    rw [List.filter_cons, List.filter_cons]
    by_cases hx : x.seats = .str "CLOSED"
    · rw [if_neg (by simp [hx]), if_neg (by simp [hx])]
      simp only [List.append_eq]
      exact ih _ _ _
    · rw [if_pos (by simp [hx]), if_pos (by simp [hx])]
      simp only [entriesOfRows, List.append_eq]
      rw [ih]

/-- A `CLOSED` row contributes nothing: appending one to any input
leaves the emitted records unchanged. -/
theorem buildEntries_append_closed :
    ∀ (rows : List Row) (t : List Int) (r : Row), r.seats = .str "CLOSED" →
      buildEntries (rows ++ [r]) t = buildEntries rows t := by
  intro rows t r hr
  unfold buildEntries keptRows ffillRows
  exact entriesOfRows_append_closed t r hr rows .nan .nan .nan

/-- **C5.** The three-row scenario (room 225 `MW` 9:00–9:50 AM, room 227
Monday 1:00–2:15 PM, and a `CLOSED` room-225 Tuesday row) yields exactly
the three records Mon/225, Wed/225, Mon/227 — the `CLOSED` row
contributes none — and in general appending a row whose seats-remaining
value is exactly `CLOSED` never changes the emitted records. -/
theorem closed_row_claim :
    buildEntries scenarioRows target_rooms_config =
      .ok [entryMon225, entryWed225, entryMon227] ∧
    (∀ (rows : List Row) (t : List Int) (r : Row), r.seats = .str "CLOSED" →
      buildEntries (rows ++ [r]) t = buildEntries rows t) :=
  ⟨rfl, buildEntries_append_closed⟩

/-- Witness for C5: appending the scenario's `CLOSED` row once more
changes nothing. -/
theorem closed_row_claim_witness :
    buildEntries (scenarioRows ++ [scenarioRow3]) target_rooms_config =
      buildEntries scenarioRows target_rooms_config :=
  closed_row_claim.2 scenarioRows target_rooms_config scenarioRow3 rfl

/-! ## C6: the error policy of the field normalizers -/

/-- **C6 counterexample.** Not every normalizer degrades to a sentinel:
on a numeric cell, `extract_last_name` (the `in` containment test) and
`abbreviate_title` (`re.sub`) raise `TypeError` instead of returning a
value. -/
theorem normalizer_raises_cx :
    extract_last_name (.int 5) = .error .typeError ∧
    abbreviate_title (.int 5) = .error .typeError :=
  ⟨rfl, rfl⟩

/-- **C6 (amended).** `parse_time`, `extract_room_number`, `format_time`,
`expand_days` and `is_before_noon` are total over all cell values (they
are embedded as plain functions because no operation in them can raise);
`extract_last_name` and `abbreviate_title` return a value exactly for
missing or string cells, and raise `TypeError` on every other value. -/
theorem normalizer_total_amended (v : CellVal) :
    ((∃ out, extract_last_name v = .ok out) ↔ v = .nan ∨ ∃ s, v = .str s) ∧
    ((∃ out, abbreviate_title v = .ok out) ↔ v = .nan ∨ ∃ s, v = .str s) := by
  cases v with
  | nan => simp [extract_last_name, abbreviate_title]
  | str s =>
    refine ⟨⟨fun _ => Or.inr ⟨s, rfl⟩, fun _ => ?_⟩,
            ⟨fun _ => Or.inr ⟨s, rfl⟩, fun _ => ?_⟩⟩
    · simp only [extract_last_name]
      split_ifs <;> exact ⟨_, rfl⟩
    · simp only [abbreviate_title]
      split_ifs <;> exact ⟨_, rfl⟩
  | timeOfDay h m => simp [extract_last_name, abbreviate_title]
  | int n => simp [extract_last_name, abbreviate_title]

/-! ## C7: the title abbreviation table -/

/-- For a pattern without `.`, regular-expression matching coincides with
literal case-insensitive prefix matching. -/
theorem patMatchPrefix_eq_ci {pat : List Char} (hp : '.' ∉ pat) :
    ∀ l : List Char,
      patMatchPrefix pat l =
        if ciIsPrefixOf pat l then some (l.drop pat.length) else none := by
  induction pat with
  | nil =>
    intro l
    simp [patMatchPrefix, ciIsPrefixOf]
  | cons p ps ih =>
    intro l
    have hpd : p ≠ '.' := fun h => hp (h ▸ List.mem_cons_self p ps)
    have hps : '.' ∉ ps := fun h => hp (List.mem_cons_of_mem p h)
    cases l with
    | nil => simp [patMatchPrefix, ciIsPrefixOf]
    | cons c cs =>
      simp only [patMatchPrefix, patCharMatches, hpd, if_false, ciIsPrefixOf]
      by_cases hm : p.toLower = c.toLower
      · simp [hm, ih hps cs]
      · simp [hm]

/-- For a pattern without `.`, the embedded `re.sub` is literal
case-insensitive replace-all. -/
theorem reSubAux_eq_ci {pat : List Char} (hp : '.' ∉ pat) (rep : List Char) :
    ∀ (fuel : Nat) (l : List Char),
      reSubAux pat rep fuel l = ciReplaceAux pat rep fuel l := by
  intro fuel
  induction fuel with
  | zero => intro l; rfl
  | succ n ih =>
    intro l
    cases l with
    | nil => rfl
    | cons c cs =>
      simp only [reSubAux, ciReplaceAux, patMatchPrefix_eq_ci hp]
      by_cases hm : ciIsPrefixOf pat (c :: cs) = true
      · simp [hm, ih]
      · simp [hm, ih]

/-- String version of `reSubAux_eq_ci`. -/
theorem reSub_eq_ciReplace (pat rep s : String) (hp : '.' ∉ pat.data) :
    reSub pat rep s = ciReplace pat rep s := by
  unfold reSub ciReplace
  rw [reSubAux_eq_ci hp]

/-- **C7 counterexample.** The abbreviation rules are applied as regular
expressions, not literal text: each `.` of the
`"Comp. Anat. of Vertebrates"` rule matches an arbitrary character, so a
title containing no rule text literally is still rewritten, while the
spec-modelled literal find/replace leaves it unchanged. -/
theorem abbreviate_title_literal_cx :
    abbreviate_title (.str "CompX AnatX of Vertebrates") = .ok "Comp An Vert" ∧
    abbreviateTitleLiteral "CompX AnatX of Vertebrates" =
      "CompX AnatX of Vertebrates" ∧
    ("Comp An Vert" : String) ≠ "CompX AnatX of Vertebrates" :=
  ⟨rfl, rfl, by decide⟩

/-- **C7 (amended).** The rules are applied in fixed table order, each by
one case-insensitive `re.sub` over the whole string; every rule whose
pattern contains no `.` behaves as a literal case-insensitive
find/replace (only the `"Comp. Anat. of Vertebrates"` rule has
wildcards), and the `"Medical Microbiology Laboratory"` example holds:
the result contains `"Med Micro"` and no longer contains
`"Laboratory"`. -/
theorem abbreviate_title_amended :
    (∀ (pat rep s : String), '.' ∉ pat.data →
      reSub pat rep s = ciReplace pat rep s) ∧
    abbreviate_title (.str "Medical Microbiology Laboratory") = .ok "Med Micro " ∧
    containsSub "Med Micro".data "Med Micro ".data = true ∧
    containsSub "Laboratory".data "Med Micro ".data = false :=
  ⟨fun pat rep s hp => reSub_eq_ciReplace pat rep s hp, rfl, rfl, rfl⟩

/-- Witness for the amended C7 on the `"Laboratory"` deletion rule. -/
theorem abbreviate_title_amended_witness :
    reSub "Laboratory" "" "Medical Microbiology Laboratory" =
      ciReplace "Laboratory" "" "Medical Microbiology Laboratory" :=
  abbreviate_title_amended.1 "Laboratory" "" "Medical Microbiology Laboratory"
    (by decide)

/-! ## C9: `extract_last_name` vs whitespace-separated tokens -/

/-- `takeWhile` over an append. -/
theorem takeWhile_app {α : Type} (p : α → Bool) :
    ∀ (A B : List α), (A ++ B).takeWhile p =
      if A.all p then A ++ B.takeWhile p else A.takeWhile p := by
  intro A
  induction A with
  | nil => intro B; simp
  | cons a A ih =>
    intro B
    by_cases ha : p a
    · simp only [List.cons_append, List.takeWhile_cons, ha, if_true, List.all_cons,
        Bool.true_and]
      rw [ih]
      by_cases hA : A.all p
      · simp [hA]
      · simp [hA]
    · simp [List.takeWhile_cons, ha]

/-- `dropWhile` over an append. -/
theorem dropWhile_app {α : Type} (p : α → Bool) :
    ∀ (A B : List α), (A ++ B).dropWhile p =
      if (A.dropWhile p).isEmpty then B.dropWhile p else A.dropWhile p ++ B := by
  intro A
  induction A with
  | nil => intro B; simp
  | cons a A ih =>
    intro B
    by_cases ha : p a
    · simp only [List.cons_append, List.dropWhile_cons, ha, if_true]
      exact ih B
    · simp [List.dropWhile_cons, ha]

/-- The first remaining element after `dropWhile` fails the predicate. -/
theorem dropWhile_first_false {α : Type} (p : α → Bool) :
    ∀ (l : List α) (h : α) (rest : List α),
      l.dropWhile p = h :: rest → p h = false := by
  intro l
  induction l with
  | nil => intro h rest hh; cases hh
  | cons a as ih =>
    intro h rest hh
    by_cases ha : p a
    · rw [List.dropWhile_cons, if_pos ha] at hh
      exact ih _ _ hh
    · rw [List.dropWhile_cons, if_neg ha] at hh
      cases hh
      exact Bool.eq_false_iff.mpr ha

/-- `takeWhile` of a list all of whose elements fail the predicate. -/
theorem takeWhile_nil_of_false {α : Type} (p : α → Bool) :
    ∀ (l : List α), (∀ x ∈ l, p x = false) → l.takeWhile p = [] := by
  intro l h
  cases l with
  | nil => rfl
  | cons a as =>
    rw [List.takeWhile_cons]
    simp [h a (List.mem_cons_self a as)]

/-- `takeWhile` only depends on the predicate's values on the list. -/
theorem takeWhile_congr_mem {α : Type} {p q : α → Bool} :
    ∀ {l : List α}, (∀ x ∈ l, p x = q x) → l.takeWhile p = l.takeWhile q := by
  intro l
  induction l with
  | nil => intro _; rfl
  | cons a as ih =>
    intro h
    rw [List.takeWhile_cons, List.takeWhile_cons, h a (List.mem_cons_self a as),
      ih (fun x hx => h x (List.mem_cons_of_mem a hx))]

/-- `dropWhile` only depends on the predicate's values on the list. -/
theorem dropWhile_congr_mem {α : Type} {p q : α → Bool} :
    ∀ {l : List α}, (∀ x ∈ l, p x = q x) → l.dropWhile p = l.dropWhile q := by
  intro l
  induction l with
  | nil => intro _; rfl
  | cons a as ih =>
    intro h
    rw [List.dropWhile_cons, List.dropWhile_cons, h a (List.mem_cons_self a as),
      ih (fun x hx => h x (List.mem_cons_of_mem a hx))]

/-- `str.split` never returns an empty list. -/
theorem splitChAux_ne_nil (sep : Char) :
    ∀ (l acc : List Char), splitChAux sep l acc ≠ [] := by
  intro l
  induction l with
  | nil => intro acc; simp [splitChAux]
  | cons c rest ih =>
    intro acc
    by_cases hc : c = sep
    · simp [splitChAux, hc]
    · simp only [splitChAux, hc, if_false]
      exact ih _

/-- `lastOf` skips a head when the tail is nonempty. -/
theorem lastOf_cons_of_ne_nil (x : String) :
    ∀ (l : List String), l ≠ [] → lastOf (x :: l) = lastOf l := by
  intro l h
  cases l with
  | nil => exact absurd rfl h
  | cons y rest => rfl

/-- A list containing `sep` does not entirely consist of non-`sep`
characters (stated on the reverse, as used below). -/
theorem all_ne_sep_false {sep : Char} {rest : List Char} (hr : sep ∈ rest) :
    rest.reverse.all (fun c => !decide (c = sep)) = false := by
  rw [Bool.eq_false_iff]
  intro hall
  have h2 := (List.all_eq_true.mp hall) sep (List.mem_reverse.mpr hr)
  simp at h2

/-- A list avoiding `sep` consists of non-`sep` characters. -/
theorem all_ne_sep_true {sep : Char} {rest : List Char} (hr : sep ∉ rest) :
    rest.reverse.all (fun c => !decide (c = sep)) = true := by
  rw [List.all_eq_true]
  intro x hx
  have hxr : x ∈ rest := List.mem_reverse.mp hx
  have hne : x ≠ sep := fun h => hr (h ▸ hxr)
  simp [hne]

/-- Closed form for the last piece of a separator split: with a `sep`
present it is the trailing `sep`-free run, otherwise the whole input
(prefixed by the pending accumulator). -/
theorem lastOf_splitChAux (sep : Char) :
    ∀ (l acc : List Char),
      lastOf (splitChAux sep l acc) =
        if sep ∈ l then
          ⟨(l.reverse.takeWhile (fun c => !decide (c = sep))).reverse⟩
        else ⟨acc.reverse ++ l⟩ := by
  intro l
  induction l with
  | nil =>
    intro acc
    rw [if_neg (by simp)]
    show (⟨acc.reverse⟩ : String) = ⟨acc.reverse ++ []⟩
    rw [List.append_nil]
  | cons c rest ih =>
    intro acc
    by_cases hc : c = sep
    · simp only [splitChAux]
      rw [if_pos hc]
      rw [lastOf_cons_of_ne_nil _ _ (splitChAux_ne_nil sep rest []),
        ih [], if_pos (List.mem_cons.mpr (Or.inl hc.symm))]
      by_cases hr : sep ∈ rest
      · rw [if_pos hr]
        have heq : (c :: rest).reverse.takeWhile (fun c => !decide (c = sep)) =
            rest.reverse.takeWhile (fun c => !decide (c = sep)) := by
          rw [List.reverse_cons, takeWhile_app, all_ne_sep_false hr]
          simp
        rw [heq]
      · rw [if_neg hr]
        have heq : (c :: rest).reverse.takeWhile (fun c => !decide (c = sep)) =
            rest.reverse := by
          rw [List.reverse_cons, takeWhile_app, all_ne_sep_true hr, if_pos rfl]
          simp [List.takeWhile_cons, hc]
        rw [heq]
        simp
    · simp only [splitChAux]
      rw [if_neg hc]
      rw [ih (c :: acc)]
      have hmem : (sep ∈ c :: rest) ↔ sep ∈ rest := by
        constructor
        · intro h
          rcases List.mem_cons.mp h with h1 | h1
          · exact absurd h1.symm hc
          · exact h1
        · exact fun h => List.mem_cons_of_mem c h
      by_cases hr : sep ∈ rest
      · rw [if_pos hr, if_pos (hmem.mpr hr)]
        have heq : (c :: rest).reverse.takeWhile (fun c => !decide (c = sep)) =
            rest.reverse.takeWhile (fun c => !decide (c = sep)) := by
          rw [List.reverse_cons, takeWhile_app, all_ne_sep_false hr]
          simp
        rw [heq]
      · rw [if_neg hr, if_neg (fun h => hr (hmem.mp h))]
        rw [List.reverse_cons, List.append_assoc, List.singleton_append]

/-- A list containing a space is not all non-space. -/
theorem all_not_isSpc_false {w : List Char} (hr : ' ' ∈ w) :
    w.all (fun c => !isSpc c) = false := by
  rw [Bool.eq_false_iff]
  intro hall
  have h2 := (List.all_eq_true.mp hall) ' ' hr
  simp [isSpc] at h2

/-- A list avoiding the space character is all non-space. -/
theorem all_not_isSpc_true {w : List Char} (hr : ' ' ∉ w) :
    w.all (fun c => !isSpc c) = true := by
  rw [List.all_eq_true]
  intro x hx
  have hne : x ≠ ' ' := fun h => hr (h ▸ hx)
  simp [isSpc, hne]

/-- On space-only whitespace, the last piece of the split-on-space of the
stripped list is the trailing space-free run after dropping trailing
spaces. -/
theorem strip_split_last_sp :
    ∀ l : List Char,
      lastOf (splitChAux ' '
          (((l.dropWhile isSpc).reverse.dropWhile isSpc).reverse) []) =
        ⟨((l.reverse.dropWhile isSpc).takeWhile (fun c => !isSpc c)).reverse⟩ := by
  intro l
  by_cases hu0 : l.dropWhile isSpc = []
  · have hall : ∀ x ∈ l, isSpc x := List.dropWhile_eq_nil_iff.mp hu0
    have h1 : ((l.dropWhile isSpc).reverse.dropWhile isSpc).reverse = ([] : List Char) := by
      rw [hu0]
      rfl
    have h2 : l.reverse.dropWhile isSpc = [] := by
      rw [List.dropWhile_eq_nil_iff]
      intro x hx
      exact hall x (List.mem_reverse.mp hx)
    rw [h1, h2]
    rfl
  · obtain ⟨h0, u', hu'⟩ : ∃ h0 u', l.dropWhile isSpc = h0 :: u' := by
      cases hcase : l.dropWhile isSpc with
      | nil => exact absurd hcase hu0
      | cons a b => exact ⟨a, b, rfl⟩
    have hh0 : isSpc h0 = false := dropWhile_first_false isSpc l h0 u' hu'
    have hwne : (l.dropWhile isSpc).reverse.dropWhile isSpc ≠ [] := by
      intro hwe
      have hall := List.dropWhile_eq_nil_iff.mp hwe
      have h3 := hall h0 (List.mem_reverse.mpr (by rw [hu']; exact List.mem_cons_self _ _))
      rw [hh0] at h3
      cases h3
    have hlrev : l.reverse.dropWhile isSpc =
        (l.dropWhile isSpc).reverse.dropWhile isSpc ++ (l.takeWhile isSpc).reverse := by
      conv_lhs =>
        rw [show l = l.takeWhile isSpc ++ l.dropWhile isSpc from
          (List.takeWhile_append_dropWhile isSpc l).symm]
      rw [List.reverse_append, dropWhile_app, if_neg]
      intro hemp
      exact hwne (by simpa using hemp)
    rw [hlrev, takeWhile_app]
    by_cases hsp : ' ' ∈ (l.dropWhile isSpc).reverse.dropWhile isSpc
    · rw [all_not_isSpc_false hsp]
      rw [lastOf_splitChAux, if_pos (List.mem_reverse.mpr hsp)]
      rw [List.reverse_reverse]
      simp only [Bool.false_eq_true, if_false]
      rfl
    · rw [all_not_isSpc_true hsp, if_pos rfl]
      have hsp2 : (l.takeWhile isSpc).reverse.takeWhile (fun c => !isSpc c) = [] := by
        refine takeWhile_nil_of_false _ _ (fun x hx => ?_)
        have hmem := List.mem_takeWhile_imp (List.mem_reverse.mp hx)
        simp [hmem]
      rw [hsp2, List.append_nil]
      rw [lastOf_splitChAux, if_neg (fun h => hsp (List.mem_reverse.mp h))]
      simp

/-- **C9 counterexample.** `extract_last_name` splits on the space
character only, not on arbitrary whitespace: on `"John\tDoe"` the code
returns the whole string upper-cased (the tab intact), while the last
whitespace-separated token upper-cased would be `"DOE"`. -/
theorem extract_last_name_ws_cx :
    extract_last_name (.str "John\tDoe") = .ok "JOHN\tDOE" ∧
    pyUpper (lastWsToken "John\tDoe") = "DOE" ∧
    ("JOHN\tDOE" : String) ≠ "DOE" :=
  ⟨rfl, rfl, by decide⟩

/-- **C9 (amended).** `extract_last_name` returns the empty string on
missing/empty input; any string containing the literal name
"Wilnelia Recart Gonzalez" maps to `"RECART"`; and for every other
string whose whitespace characters are all plain spaces, the result is
the last whitespace-separated token, upper-cased.  (Tokens separated by
other whitespace characters, such as tabs, are not split.) -/
theorem extract_last_name_amended :
    extract_last_name .nan = .ok "" ∧
    extract_last_name (.str "") = .ok "" ∧
    (∀ s : String, containsSub "Wilnelia Recart Gonzalez".data s.data = true →
      extract_last_name (.str s) = .ok "RECART") ∧
    (∀ s : String,
      containsSub "Wilnelia Recart Gonzalez".data s.data = false →
      (∀ c ∈ s.data, pyIsSpace c = true → c = ' ') →
      extract_last_name (.str s) = .ok (pyUpper (lastWsToken s))) := by
  refine ⟨rfl, rfl, ?_, ?_⟩
  · intro s hc
    by_cases hs : s = ""
    · subst hs
      exact absurd hc (by decide)
    · simp only [extract_last_name]
      rw [if_neg hs, if_pos hc]
  · intro s hc honly
    by_cases hs : s = ""
    · subst hs
      rfl
    · simp only [extract_last_name]
      rw [if_neg hs, if_neg (by simp [hc])]
      have hpy : ∀ c ∈ s.data, pyIsSpace c = isSpc c := by
        intro c hcmem
        by_cases hsp : pyIsSpace c = true
        · have hce := honly c hcmem hsp
          subst hce
          rfl
        · have hf : pyIsSpace c = false := Bool.eq_false_iff.mpr hsp
          have hcne : c ≠ ' ' := fun h => by
            subst h
            exact hsp rfl
          rw [hf]
          simp [isSpc, hcne]
      have hsubset : ∀ x ∈ s.data.dropWhile pyIsSpace, x ∈ s.data :=
        fun x hx => (List.dropWhile_sublist pyIsSpace).subset hx
      have h1 : s.data.dropWhile pyIsSpace = s.data.dropWhile isSpc :=
        dropWhile_congr_mem hpy
      have h2 : (s.data.dropWhile isSpc).reverse.dropWhile pyIsSpace =
          (s.data.dropWhile isSpc).reverse.dropWhile isSpc := by
        refine dropWhile_congr_mem (fun x hx => hpy x ?_)
        have hx2 : x ∈ s.data.dropWhile isSpc := List.mem_reverse.mp hx
        exact (List.dropWhile_sublist isSpc).subset hx2
      have h3 : s.data.reverse.dropWhile pyIsSpace =
          s.data.reverse.dropWhile isSpc := by
        refine dropWhile_congr_mem (fun x hx => hpy x ?_)
        exact List.mem_reverse.mp hx
      have h4 : (s.data.reverse.dropWhile isSpc).takeWhile (fun c => !pyIsSpace c) =
          (s.data.reverse.dropWhile isSpc).takeWhile (fun c => !isSpc c) := by
        refine takeWhile_congr_mem (fun x hx => ?_)
        have hx2 : x ∈ s.data.reverse := (List.dropWhile_sublist isSpc).subset hx
        rw [hpy x (List.mem_reverse.mp hx2)]
      show Except.ok (pyUpper (lastOf (pySplitCh (pyStrip s) ' '))) =
        Except.ok (pyUpper (lastWsToken s))
      unfold pySplitCh pyStrip pyStripL lastWsToken
      rw [h1, h2, h3, h4]
      rw [strip_split_last_sp s.data]

/-- Witness for the amended C9 on a plain two-token name. -/
theorem extract_last_name_amended_witness :
    extract_last_name (.str "Jane Doe") = .ok (pyUpper (lastWsToken "Jane Doe")) :=
  extract_last_name_amended.2.2.2 "Jane Doe" (by decide) (by decide)

end BioChart
